import Mathlib

/-!
Shallow embedding of the LangoTango core (langotango.py): the document
content model with bounded undo/redo history, the workspace folder tree
with its move/trash operations, JSON (de)serialization of the tree, and
the QTextEdit block/span conversion helpers. Each definition is a direct
translation of the corresponding Python function; Python lists become
Lean lists (append at the end models list.append, tail models pop(0),
dropLast models pop()), deep copies become plain values, and object
identity is modelled by an explicit object id field where the source
relies on it.
-/

namespace LangoTango

/-- Class LangoTangoDocument (langotango.py lines 21-32): a named document
with a content value, ISO timestamps, and the two history stacks. The
content type is abstract (in the application it is the parsed JSON block
list); max_states is the constant 50. -/
structure LTDoc (α : Type) where
  name : String
  content : α
  created : String
  modified : String
  undo_stack : List α
  redo_stack : List α

deriving DecidableEq


/-- Constant self.max_states = 50 (line 30). -/
def max_states : Nat := 50


/-- Method add_state (lines 34-40): append a deep copy of the content to
undo_stack, pop index 0 when the length exceeds max_states, and clear
redo_stack. -/
def add_state {α : Type} (d : LTDoc α) (c : α) : LTDoc α :=
  let u := d.undo_stack ++ [c]
  { d with
    undo_stack := if max_states < u.length then u.tail else u
    redo_stack := [] }


/-- Method undo (lines 42-49): when undo_stack has more than one entry,
pop its top onto redo_stack (evicting redo_stack's index 0 past the
bound) and return the new top of undo_stack; otherwise return
self.content. The method result is (mutated document, returned value). -/
def undo {α : Type} (d : LTDoc α) : LTDoc α × α :=
  if 1 < d.undo_stack.length then
    let current := d.undo_stack.getLastD d.content
    let u := d.undo_stack.dropLast
    let r0 := d.redo_stack ++ [current]
    let r := if max_states < r0.length then r0.tail else r0
    ({ d with undo_stack := u, redo_stack := r }, u.getLastD d.content)
  else
    (d, d.content)


/-- Method redo (lines 51-58): when redo_stack is nonempty, pop its top,
push it onto undo_stack (with eviction), and return it; otherwise return
self.content. -/
def redo {α : Type} (d : LTDoc α) : LTDoc α × α :=
  if d.redo_stack.isEmpty then (d, d.content)
  else
    let current := d.redo_stack.getLastD d.content
    let r := d.redo_stack.dropLast
    let u0 := d.undo_stack ++ [current]
    let u := if max_states < u0.length then u0.tail else u0
    ({ d with undo_stack := u, redo_stack := r }, current)


/-- Constructor LangoTangoDocument.__init__ (lines 22-32) with all
arguments supplied: stacks start empty and add_state(self.content) seeds
undo_stack with the initial content. -/
def mkDoc {α : Type} (name : String) (content : α) (created modified : String) : LTDoc α :=
  add_state
    { name := name, content := content, created := created, modified := modified
      undo_stack := [], redo_stack := [] } content


/-- Commit path document_changed (lines 1337-1345) restricted to the
document it mutates: when the new editor content differs from
self.content, assign content and modified and call add_state. -/
def document_changed {α : Type} [DecidableEq α] (d : LTDoc α) (c : α) (now : String) :
    LTDoc α :=
  if c ≠ d.content then add_state { d with content := c, modified := now } c else d


/-- A span record of the persisted JSON block structure: each recognized
field may be present or absent (the source reads them with dict.get and a
default). -/
structure JSpan where
  text : Option String
  font_family : Option String
  font_size : Option Int
  bold : Option Bool
  italic : Option Bool
  underline : Option Bool
  highlight : Option Bool
  color : Option String

deriving DecidableEq


/-- A block record: paragraph alignment (the integer value of the Qt
alignment flags) and the span list, each possibly absent. -/
structure JBlock where
  alignment : Option Int
  spans : Option (List JSpan)

deriving DecidableEq


/-- Content: the ordered JSON block list a document's content holds. -/
abbrev Content := List JBlock


/-- The slice of QTextCharFormat state that json_to_qtextedit sets per
span: font family and point size, the three style booleans, whether the
background was set to the fixed highlight color QColor(175,180,65), and
the foreground when one was set — as the QColor it was set to, an RGB
triple for a parseable color string and none for an invalid one (fg =
none means no foreground was set at all). -/
structure CharFmt where
  family : String
  size : Int
  bold : Bool
  italic : Bool
  underline : Bool
  hlBg : Bool
  fg : Option (Option (Nat × Nat × Nat))

deriving DecidableEq


/-- One paragraph of the QTextDocument: its block-format alignment (as an
integer) and its fragments, each a maximal run of text sharing one char
format. -/
structure WBlock where
  align : Int
  frags : List (String × CharFmt)

deriving DecidableEq


/-- The QTextDocument body: its block sequence (never empty; a cleared
document holds a single empty block with unset alignment, integer 0). -/
abbrev WDoc := List WBlock


/-- Appending one break-free run of text with char format f at the end of
a block: Qt's piece table merges the new fragment into the preceding one
when both carry the same format, and inserting the empty string is a
no-op. -/
def pushFrag (b : WBlock) (t : String) (f : CharFmt) : WBlock :=
  if t = "" then b
  else
    match b.frags.getLast? with
    | some (t0, f0) =>
      if f0 = f then { b with frags := b.frags.dropLast ++ [(t0 ++ t, f0)] }
      else { b with frags := b.frags ++ [(t, f)] }
    | none => { b with frags := [(t, f)] }


/-- QTextCursor::insertText does not insert newline (0x0A), carriage
return (0x0D) or the Unicode paragraph separator (U+2029) as text: each
such character becomes a block break. splitSegs cuts the inserted text
into the break-free runs between the breaks (the exact grouping of a CR
LF pair is a Qt detail that no theorem below exercises: their domains
admit only break-free text). -/
def splitSegs : List Char → List (List Char)
  | [] => [[]]
  | c :: rest =>
    if c == '\n' || c == '\r' || c == '\u2029' then [] :: splitSegs rest
    else
      match splitSegs rest with
      | [] => [[c]]
      | seg :: segs => (c :: seg) :: segs


/-- The text contains none of the characters QTextCursor::insertText
turns into block breaks. -/
def sepFree (t : String) : Bool :=
  t.data.all (fun c => !(c == '\n' || c == '\r' || c == '\u2029'))


/-- Apply a function to the last block of the document (the block holding
the cursor, which json_to_qtextedit keeps at the end). -/
def mapLast (f : WBlock → WBlock) : List WBlock → List WBlock
  | [] => []
  | [b] => [f b]
  | b :: rest => b :: mapLast f rest


/-- The block-format alignment of the block holding the cursor. -/
def lastAlign : List WBlock → Int
  | [] => 0
  | [b] => b.align
  | _ :: rest => lastAlign rest


/-- cursor.insertText(t) with char format f at the end of the document:
the first break-free run of t is appended to the current block, and every
later run starts a new block that inherits the current block format
(Qt keeps the block format across the breaks insertText generates). -/
def insertText (w : WDoc) (t : String) (f : CharFmt) : WDoc :=
  match splitSegs t.data with
  | [] => w
  | seg :: segs =>
    segs.foldl
      (fun acc s =>
        acc ++ [pushFrag { align := lastAlign acc, frags := [] } (String.mk s) f])
      (mapLast (fun b => pushFrag b (String.mk seg) f) w)


/-- The numeric value of one hexadecimal digit, either case. -/
def hexDigit (c : Char) : Option Nat :=
  if '0' ≤ c ∧ c ≤ '9' then some (c.toNat - '0'.toNat)
  else if 'a' ≤ c ∧ c ≤ 'f' then some (c.toNat - 'a'.toNat + 10)
  else if 'A' ≤ c ∧ c ≤ 'F' then some (c.toNat - 'A'.toNat + 10)
  else none


/-- QColor(name) on a #rrggbb hex string, either case: the parsed RGB
triple. Qt also accepts #rgb and longer hex forms and the SVG color
names (e.g. "red"); those spellings are outside every theorem's domain
below and are modelled as the invalid color (none), which serializes to
"#000000" just as an invalid foreground does in Qt. -/
def parseHexColor (s : String) : Option (Nat × Nat × Nat) :=
  match s.data with
  | ['#', c1, c2, c3, c4, c5, c6] =>
    match hexDigit c1, hexDigit c2, hexDigit c3,
        hexDigit c4, hexDigit c5, hexDigit c6 with
    | some v1, some v2, some v3, some v4, some v5, some v6 =>
      some (16 * v1 + v2, 16 * v3 + v4, 16 * v5 + v6)
    | _, _, _, _, _, _ => none
  | _ => none


/-- The lower-case hex digit of a value below 16, as QColor::name
prints it. -/
def hexChar (n : Nat) : Char :=
  if n < 10 then Char.ofNat (48 + n) else Char.ofNat (97 + n - 10)


/-- QColor::name(): the canonical lower-case #rrggbb spelling of an RGB
triple. -/
def hexName (rgb : Nat × Nat × Nat) : String :=
  String.mk ['#', hexChar (rgb.1 / 16), hexChar (rgb.1 % 16),
    hexChar (rgb.2.1 / 16), hexChar (rgb.2.1 % 16),
    hexChar (rgb.2.2 / 16), hexChar (rgb.2.2 % 16)]


/-- The color string is already in QColor::name()'s output form: a
#rrggbb hex string whose digits are lower-case, so QColor(c).name() = c.
Other spellings QColor accepts (upper-case hex such as "#FF0000", or SVG
names such as "red") are canonicalized by name() and therefore cannot
round-trip. -/
def isCanonHex (c : String) : Bool :=
  match parseHexColor c with
  | some rgb => hexName rgb == c
  | none => false


/-- The QTextCharFormat built for one span (lines 3327-3337): family and
size default to "Courier New" and 12; absent booleans are falsy; the
highlight background is set only for a truthy highlight; the foreground
is set only when color is present, truthy (nonempty) and not the black
sentinel "#000000", and then holds QColor(color) — the parsed RGB
value, not the string. -/
def mkFmt (s : JSpan) : CharFmt :=
  { family := s.font_family.getD "Courier New"
    size := s.font_size.getD 12
    bold := s.bold.getD false
    italic := s.italic.getD false
    underline := s.underline.getD false
    hlBg := s.highlight.getD false
    fg := match s.color with
      | some c => if c ≠ "" ∧ c ≠ "#000000" then some (parseHexColor c) else none
      | none => none }


/-- The inner span loop of json_to_qtextedit: set the char format, then
insert the span's text (default "") at the cursor, which splits it at
block breaks. -/
def applySpans (w : WDoc) (ss : List JSpan) : WDoc :=
  ss.foldl (fun w s => insertText w (s.text.getD "") (mkFmt s)) w


/-- json_to_qtextedit (lines 3314-3340): clear() leaves one empty block
with unset alignment; the first JSON block restyles that block via
setBlockFormat, every later block appends a fresh block via insertBlock
(absent alignment defaults to Qt.AlignLeft = 1); spans are inserted at
the cursor, which stays at the end of the document. On empty input the
cleared single empty block remains. -/
def json_to_qtextedit : Content → WDoc
  | [] => [{ align := 0, frags := [] }]
  | b0 :: rest =>
    rest.foldl
      (fun w b =>
        applySpans (w ++ [{ align := b.alignment.getD 1, frags := [] }])
          (b.spans.getD []))
      (applySpans [{ align := b0.alignment.getD 1, frags := [] }]
        (b0.spans.getD []))


/-- A span in the widget's normal form: text present, nonempty and free
of block-break characters (insertText would turn those into extra
blocks), every field present, a positive point size (QFont ignores
nonpositive sizes), and a present color string in QColor::name()'s
canonical lower-case #rrggbb form (any other spelling is rewritten by
name() and cannot come back identical). -/
def spanOk (s : JSpan) : Prop :=
  s.text.getD "" ≠ "" ∧ sepFree (s.text.getD "") = true ∧
  s.font_family.isSome ∧ s.font_size.isSome ∧
  1 ≤ s.font_size.getD 12 ∧ s.bold.isSome ∧ s.italic.isSome ∧
  s.underline.isSome ∧ s.highlight.isSome ∧ s.color.isSome ∧
  isCanonHex (s.color.getD "") = true


instance instDecidableSpanOk (s : JSpan) : Decidable (spanOk s) :=
  inferInstanceAs (Decidable (_ ∧ _ ∧ _ ∧ _ ∧ _ ∧ _ ∧ _ ∧ _ ∧ _ ∧ _ ∧ _))


/-- No two consecutive spans of the list share an identical char format
(Qt would merge their fragments). -/
def adjDistinct : List JSpan → Prop
  | [] => True
  | [_] => True
  | s1 :: s2 :: rest => mkFmt s1 ≠ mkFmt s2 ∧ adjDistinct (s2 :: rest)


instance instDecidableAdjDistinct : ∀ l : List JSpan, Decidable (adjDistinct l)
  | [] => isTrue trivial
  | [_] => isTrue trivial
  | _ :: s2 :: rest =>
    have := instDecidableAdjDistinct (s2 :: rest)
    inferInstanceAs (Decidable (_ ∧ _))


/-- A block in the widget's normal form: alignment present, span list
present with every span in normal form and adjacent spans formatted
differently. -/
def blockOk (b : JBlock) : Prop :=
  b.alignment.isSome ∧ ∃ l, b.spans = some l ∧ (∀ s ∈ l, spanOk s) ∧ adjDistinct l


instance instDecidableBlockOk (b : JBlock) : Decidable (blockOk b) :=
  match hb : b.spans with
  | none => isFalse (fun h => by
      obtain ⟨-, l, hl, -, -⟩ := h
      rw [hb] at hl
      exact Option.noConfusion hl)
  | some l =>
    if ha : b.alignment.isSome then
      if hs : (∀ s ∈ l, spanOk s) ∧ adjDistinct l then
        isTrue ⟨ha, l, hb, hs.1, hs.2⟩
      else
        isFalse (fun h => by
          obtain ⟨-, l', hl', h1, h2⟩ := h
          rw [hb] at hl'
          cases hl'
          exact hs ⟨h1, h2⟩)
    else isFalse (fun h => ha h.1)


/-- A workspace tree item: a document or a folder with nested items. The
oid field models Python object identity (the tree widget and the data
model share one object per node), which the source relies on for its
trash-folder inequality check and its list.remove calls; oids are unique
in any real workspace, which the theorems state through count
hypotheses. -/
inductive WItem (α : Type) where
  | doc (oid : Nat) (d : LTDoc α)
  | folder (oid : Nat) (name : String) (created modified : String)
      (items : List (WItem α))


/-- The object identity of an item. -/
def WItem.oid {α : Type} : WItem α → Nat
  | .doc o _ => o
  | .folder o _ _ _ _ => o


/-- isinstance(data, LangoTangoFolder). -/
def WItem.isFolder {α : Type} : WItem α → Bool
  | .doc _ _ => false
  | .folder _ _ _ _ _ => true


/-- Resolve a tree-widget path (child indices from the top level, in the
order update_file_tree builds: [root, research, trash]) to the data
object the widget item carries; the widget mirrors the data model
exactly (update_file_tree, lines 1765-1807). -/
def getL {α : Type} : List (WItem α) → List Nat → Option (WItem α)
  | _, [] => none
  | forest, i :: rest =>
    match forest[i]? with
    | none => none
    | some it =>
      match rest with
      | [] => some it
      | _ :: _ =>
        match it with
        | .doc _ _ => none
        | .folder _ _ _ _ its => getL its rest


/-- The widget-parent chain walked by the drop handler (lines 2002-2008)
visits exactly the items whose paths begin the target path, so the
dragged item is in the chain iff its path begins the target's. -/
def pathLe : List Nat → List Nat → Bool
  | [], _ => true
  | _ :: _, [] => false
  | a :: p, b :: q => a == b && pathLe p q


/-- list.remove(data): drop the first element that compares equal, which
for these plain objects is identity, i.e. the first oid match. -/
def eraseOid {α : Type} (o : Nat) : List (WItem α) → List (WItem α)
  | [] => []
  | it :: rest => if it.oid = o then rest else it :: eraseOid o rest


mutual
/-- Number of items (at any depth) carrying the oid, for one item. -/
def countOid1 {α : Type} (o : Nat) : WItem α → Nat
  | .doc o' _ => if o' = o then 1 else 0
  | .folder o' _ _ _ its => (if o' = o then 1 else 0) + countOidL o its

/-- Number of items (at any depth) carrying the oid, for a forest. -/
def countOidL {α : Type} (o : Nat) : List (WItem α) → Nat
  | [] => 0
  | it :: rest => countOid1 o it + countOidL o rest
end

mutual
/-- Number of outermost folders carrying the oid, for one item (the
number of places an in-place mutation of that folder object lands). -/
def cntF1 {α : Type} (fid : Nat) : WItem α → Nat
  | .doc _ _ => 0
  | .folder o _ _ _ its => if o = fid then 1 else cntFL fid its

/-- Number of outermost folders carrying the oid, for a forest. -/
def cntFL {α : Type} (fid : Nat) : List (WItem α) → Nat
  | [] => 0
  | it :: rest => cntF1 fid it + cntFL fid rest
end

mutual
/-- In-place mutation of the items list of the folder object with the
given oid, applied at its outermost occurrences. -/
def updFolder1 {α : Type} (fid : Nat) (f : List (WItem α) → List (WItem α)) :
    WItem α → WItem α
  | .doc o d => .doc o d
  | .folder o n c m its =>
    if o = fid then .folder o n c m (f its)
    else .folder o n c m (updFolderL fid f its)

/-- In-place mutation of a folder object's items, over a forest. -/
def updFolderL {α : Type} (fid : Nat) (f : List (WItem α) → List (WItem α)) :
    List (WItem α) → List (WItem α)
  | [] => []
  | it :: rest => updFolder1 fid f it :: updFolderL fid f rest
end

mutual
/-- In-place assignment item.modified = now on the object with the given
oid. -/
def setModified1 {α : Type} (o : Nat) (now : String) : WItem α → WItem α
  | .doc o' d => if o' = o then .doc o' { d with modified := now } else .doc o' d
  | .folder o' n c m its =>
    if o' = o then .folder o' n c now its
    else .folder o' n c m (setModifiedL o now its)

/-- In-place modified-timestamp assignment over a forest. -/
def setModifiedL {α : Type} (o : Nat) (now : String) : List (WItem α) → List (WItem α)
  | [] => []
  | it :: rest => setModified1 o now it :: setModifiedL o now rest
end

mutual
/-- The items list of the outermost-first folder with the given oid. -/
def folderItems1 {α : Type} (fid : Nat) : WItem α → Option (List (WItem α))
  | .doc _ _ => none
  | .folder o _ _ _ its => if o = fid then some its else folderItems fid its

/-- The items list of the outermost-first folder with the given oid in a
forest. -/
def folderItems {α : Type} (fid : Nat) : List (WItem α) → Option (List (WItem α))
  | [] => none
  | it :: rest =>
    match folderItems1 fid it with
    | some r => some r
    | none => folderItems fid rest
end

/-- tree_drop_event (lines 1987-2041) on the data model: both paths are
resolved against the pre-drop widget; a folder dragged onto itself or a
descendant is silently ignored (event.ignore, no exception); otherwise
remove from the old parent when one exists and is a folder, insert into
the target folder (append) or next to a target document (insert at its
pre-drop widget index), then stamp the dragged object and a folder
target with the current time. -/
def tree_drop_event {α : Type} (now : String) (forest : List (WItem α))
    (dragged target : List Nat) : Option (List (WItem α)) :=
  match getL forest dragged, getL forest target with
  | some ddata, some tdata =>
    if ddata.isFolder && pathLe dragged target then none
    else
      let forest1 :=
        if 2 ≤ dragged.length then
          match getL forest dragged.dropLast with
          | some (.folder po _ _ _ _) => updFolderL po (eraseOid ddata.oid) forest
          | _ => forest
        else forest
      let forest2 :=
        match tdata with
        | .folder fo _ _ _ _ => updFolderL fo (fun l => l ++ [ddata]) forest1
        | .doc _ _ =>
          if 2 ≤ target.length then
            match getL forest target.dropLast with
            | some (.folder po2 _ _ _ _) =>
              updFolderL po2 (fun l => l.insertIdx (target.getLastD 0) ddata) forest1
            | _ => forest1
          else forest1
      let forest3 := setModifiedL ddata.oid now forest2
      match tdata with
      | .folder fo _ _ _ _ => some (setModifiedL fo now forest3)
      | .doc _ _ => some forest3
  | _, _ => none


/-- move_to_trash (lines 1891-1902) on the data model: resolve the
widget item; when it has a parent and that parent object is not the
trash folder and is a folder, remove the object from the parent's items,
append it to the trash folder's items, and stamp the parent's modified
time; otherwise do nothing. -/
def move_to_trash {α : Type} (now : String) (forest : List (WItem α))
    (path : List Nat) (trashOid : Nat) : List (WItem α) :=
  match getL forest path with
  | none => forest
  | some data =>
    if 2 ≤ path.length then
      match getL forest path.dropLast with
      | some (.folder po _ _ _ _) =>
        if po ≠ trashOid then
          let forest1 := updFolderL po (eraseOid data.oid) forest
          let forest2 := updFolderL trashOid (fun l => l ++ [data]) forest1
          setModifiedL po now forest2
        else forest
      | _ => forest
    else forest


/-- Example workspace: root with one document and one subfolder, then
the fixed Research and Trash folders, mirroring the widget's top
level. -/
def moveForest : List (WItem Nat) :=
  [WItem.folder 0 "Root" "c" "m"
     [WItem.doc 10 (mkDoc "a.lango" 7 "c" "m"), WItem.folder 4 "Sub" "c" "m" []],
   WItem.folder 1 "Research" "c" "m" [],
   WItem.folder 2 "Trash" "c" "m" []]


/-- Example workspace with a document already in the trash. -/
def trashForest : List (WItem Nat) :=
  [WItem.folder 0 "Root" "c" "m" [],
   WItem.folder 1 "Research" "c" "m" [],
   WItem.folder 2 "Trash" "c" "m" [WItem.doc 10 (mkDoc "a.lango" 7 "c" "m")]]


/-- QTextEdit.toPlainText on the loaded document: block texts joined by
newline paragraph separators. -/
def toPlainText (w : WDoc) : String :=
  String.intercalate "\n" (w.map (fun b => String.join (b.frags.map Prod.fst)))


/-- One list leads another (initial-segment test, character version). -/
def leadsList : List Char → List Char → Bool
  | [], _ => true
  | _ :: _, [] => false
  | a :: p, b :: q => a == b && leadsList p q


/-- str.find of a sublist: first index at which the needle starts, if
any. -/
def findSub (hay needle : List Char) : Option Nat :=
  (List.range (hay.length + 1)).find? (fun i => leadsList needle (hay.drop i))


/-- str.lower, character-wise. -/
def lowerL (l : List Char) : List Char := l.map Char.toLower


/-- Python "needle in hay" after lowering both sides (line 2349). -/
def containsCI (hay needle : String) : Bool :=
  (findSub (lowerL hay.data) (lowerL needle.data)).isSome


/-- str.strip: drop whitespace from both ends. -/
def stripWS (l : List Char) : List Char :=
  ((l.dropWhile Char.isWhitespace).reverse.dropWhile Char.isWhitespace).reverse


/-- get_excerpt (lines 2324-2338): find the first case-insensitive
occurrence, slice up to 40 characters of context on each side out of the
original text, strip it, and add ellipsis markers at truncated ends. -/
def get_excerpt (text query : String) : String :=
  match findSub (lowerL text.data) (lowerL query.data) with
  | none => ""
  | some idx =>
    let tl := text.data
    let start := idx - 40
    let stop := min tl.length (idx + query.length + 40)
    (if 0 < start then "..." else "")
      ++ String.mk (stripWS ((tl.drop start).take (stop - start)))
      ++ (if stop < tl.length then "..." else "")


mutual
/-- One step of search_folder (lines 2340-2357): a document contributes
a result when its plain-text rendering contains the query
case-insensitively; a folder is searched recursively; folder names are
never reported. -/
def searchItem (query : String) : WItem Content → List (String × LTDoc Content)
  | .doc _ d =>
    let plain := toPlainText (json_to_qtextedit d.content)
    if containsCI plain query then [(get_excerpt plain query, d)] else []
  | .folder _ _ _ _ its => search_folder query its

/-- The recursive body of search_project. -/
def search_folder (query : String) : List (WItem Content) → List (String × LTDoc Content)
  | [] => []
  | it :: rest => searchItem query it ++ search_folder query rest
end

/-- search_project (lines 2320-2360): searches search_folder(self.root_folder)
only; the Research and Trash folders (separate top-level attributes, see
update_file_tree lines 1793-1805) are never visited. Results are
(excerpt, document) pairs in traversal order. -/
def search_project (query : String)
    (root_items research_items trash_items : List (WItem Content)) :
    List (String × LTDoc Content) :=
  search_folder query root_items


mutual
/-- Specification-side accessor: the documents of one item's subtree in
pre-order. -/
def pdocs1 : WItem Content → List (LTDoc Content)
  | .doc _ d => [d]
  | .folder _ _ _ _ its => pdocsL its

/-- Specification-side accessor: the documents of a forest in
pre-order. -/
def pdocsL : List (WItem Content) → List (LTDoc Content)
  | [] => []
  | it :: rest => pdocs1 it ++ pdocsL rest
end

/-- The shipped demo content of initialize_project (lines 1020-1032),
as one block with one span. -/
def demoContent : Content :=
  [{ alignment := some 1,
     spans := some [⟨some "It takes two to LangoTango!", some "Courier New", some 12,
       some false, some false, some false, some false, none⟩] }]


/-- Parsed JSON values as json.load hands them to from_dict. -/
inductive J where
  | s (v : String)
  | i (v : Int)
  | b (v : Bool)
  | null
  | arr (items : List J)
  | obj (fields : List (String × J))


/-- The Python exceptions the deserializers can raise. -/
inductive PyErr where
  | keyError (k : String)
  | typeError

deriving DecidableEq


/-- data[k]: KeyError when the key is absent from the dict, TypeError
when subscripting a non-dict. Parsed JSON objects have unique keys, so
first-match lookup is exact. -/
def getKey (d : J) (k : String) : Except PyErr J :=
  match d with
  | .obj fs =>
    match fs.find? (fun p => p.1 == k) with
    | some p => .ok p.2
    | none => .error (.keyError k)
  | _ => .error .typeError


/-- Python equality of a JSON value with a string literal. -/
def isStr (t : J) (v : String) : Bool :=
  match t with
  | .s w => w == v
  | _ => false


/-- The LangoTangoDocument object from_dict produces, with every field
holding the raw JSON value assigned to it (the source never validates
them). The stacks hold the raw assigned value; when the key was absent
they keep what __init__ seeded: undo_stack = [content] and
redo_stack = []. -/
structure PDoc where
  name : J
  content : J
  created : J
  modified : J
  undo_stack : J
  redo_stack : J


/-- The deserialized workspace items. -/
inductive PItem where
  | pdoc (d : PDoc)
  | pfolder (name created modified : J) (items : List PItem)


/-- LangoTangoDocument.from_dict (lines 71-83): the constructor keyword
arguments are evaluated left to right (name, content, created,
modified); the constructor seeds the history stacks; the persisted
stacks overwrite them when present. The stored field values are kept
raw: the constructor's substitutions for falsy values (content None
becomes [], a falsy created becomes the current time, a falsy modified
becomes created) are not modelled, and no theorem below depends on the
field values of a successfully deserialized document. -/
def LangoTangoDocument.from_dict (data : J) : Except PyErr PDoc := do
  let nm ← getKey data "name"
  let ct ← getKey data "content"
  let cr ← getKey data "created"
  let md ← getKey data "modified"
  let us := match getKey data "undo_stack" with
    | .ok v => v
    | .error _ => J.arr [ct]
  let rs := match getKey data "redo_stack" with
    | .ok v => v
    | .error _ => J.arr []
  pure { name := nm, content := ct, created := cr, modified := md,
         undo_stack := us, redo_stack := rs }


mutual
/-- LangoTangoFolder.from_dict (lines 101-115): read name, created,
modified, then iterate data["items"], dispatching on each item's type
field; an item whose type is neither "document" nor "folder" is silently
skipped. Iterating a non-list value is modelled as TypeError — a slight
coarsening of Python, where an empty string or empty dict iterates
vacuously and succeeds, while non-empty ones raise TypeError at the
first item's subscript; no theorem below reaches a non-list items
value. -/
def LangoTangoFolder.from_dict (data : J) : Except PyErr PItem :=
  match getKey data "name" with
  | .error e => .error e
  | .ok nm =>
    match getKey data "created" with
    | .error e => .error e
    | .ok cr =>
      match getKey data "modified" with
      | .error e => .error e
      | .ok md =>
        match hk : getKey data "items" with
        | .error e => .error e
        | .ok itemsJ =>
          match hv : itemsJ with
          | .arr l =>
            match itemsLoop l with
            | .error e => .error e
            | .ok its => .ok (.pfolder nm cr md its)
          | _ => .error .typeError
termination_by sizeOf data
decreasing_by
  have h1 : sizeOf (J.arr l) < sizeOf data := by
    cases data with
    | obj fs =>
      simp only [getKey] at hk
      cases hf : fs.find? (fun p => p.1 == "items") with
      | none => rw [hf] at hk; simp at hk
      | some p =>
        obtain ⟨p1, p2⟩ := p
        rw [hf] at hk
        simp only [Except.ok.injEq] at hk
        have hm := List.mem_of_find?_eq_some hf
        have hs := List.sizeOf_lt_of_mem hm
        simp only [Prod.mk.sizeOf_spec] at hs
        have h2 : sizeOf (J.obj fs) = 1 + sizeOf fs := by simp
        have h3 : sizeOf (J.arr l) = sizeOf p2 := by rw [← hk]
        omega
    | s v => simp [getKey] at hk
    | i v => simp [getKey] at hk
    | b v => simp [getKey] at hk
    | null => simp [getKey] at hk
    | arr l2 => simp [getKey] at hk
  simp only [J.arr.sizeOf_spec] at h1
  omega

/-- The item loop of LangoTangoFolder.from_dict (lines 109-113). -/
def itemsLoop : List J → Except PyErr (List PItem)
  | [] => .ok []
  | item :: rest =>
    match getKey item "type" with
    | .error e => .error e
    | .ok t =>
      if isStr t "document" then
        match LangoTangoDocument.from_dict item with
        | .error e => .error e
        | .ok d =>
          match itemsLoop rest with
          | .error e => .error e
          | .ok r => .ok (.pdoc d :: r)
      else if isStr t "folder" then
        match LangoTangoFolder.from_dict item with
        | .error e => .error e
        | .ok f =>
          match itemsLoop rest with
          | .error e => .error e
          | .ok r => .ok (f :: r)
      else
        itemsLoop rest
termination_by l => sizeOf l
decreasing_by
  all_goals
    simp only [List.cons.sizeOf_spec]
    omega
end

/-- The undo_stack of a fold of add_state calls: with the starting stack
within the bound, the result keeps exactly the last max_states entries of
the starting stack followed by the recorded contents. -/
theorem foldl_add_state_stack {α : Type} (cs : List α) :
    ∀ d : LTDoc α, d.undo_stack.length ≤ max_states →
      (cs.foldl add_state d).undo_stack =
        (d.undo_stack ++ cs).drop ((d.undo_stack ++ cs).length - max_states) := by
  induction cs with
  | nil =>
    intro d hd
    simp [Nat.sub_eq_zero_of_le, hd]
  | cons c cs ih =>
    intro d hd
    have hfold : ((c :: cs).foldl add_state d) = cs.foldl add_state (add_state d c) := rfl
    rw [hfold]
    by_cases hlen : max_states < (d.undo_stack ++ [c]).length
    · have hstack : (add_state d c).undo_stack = (d.undo_stack ++ [c]).tail := by
        simp only [add_state, if_pos hlen]
      have hlen' : (add_state d c).undo_stack.length ≤ max_states := by
        rw [hstack]
        simp only [List.length_tail, List.length_append, List.length_singleton]
        omega
      have := ih (add_state d c) hlen'
      rw [this, hstack]
      have htail : (d.undo_stack ++ [c]).tail ++ cs = ((d.undo_stack ++ [c]) ++ cs).tail := by
        have hne : d.undo_stack ++ [c] ≠ [] := by simp
        cases h : d.undo_stack ++ [c] with
        | nil => exact absurd h hne
        | cons x xs => simp
      rw [htail]
      have hdt : ((d.undo_stack ++ [c]) ++ cs).tail = ((d.undo_stack ++ [c]) ++ cs).drop 1 := by
        simp [List.drop_one]
      rw [hdt, List.drop_drop]
      have harr : d.undo_stack ++ c :: cs = (d.undo_stack ++ [c]) ++ cs := by simp
      rw [harr]
      congr 1
      simp only [List.length_tail, List.length_append, List.length_singleton,
        List.length_drop] at *
      omega
    · have hstack : (add_state d c).undo_stack = d.undo_stack ++ [c] := by
        simp only [add_state, if_neg hlen]
      have hlen' : (add_state d c).undo_stack.length ≤ max_states := by
        rw [hstack]; omega
      have := ih (add_state d c) hlen'
      rw [this, hstack]
      have harr : d.undo_stack ++ c :: cs = (d.undo_stack ++ [c]) ++ cs := by simp
      rw [harr]


/-- add_state never changes content. -/
theorem foldl_add_state_content {α : Type} (cs : List α) (d : LTDoc α) :
    (cs.foldl add_state d).content = d.content := by
  induction cs generalizing d with
  | nil => rfl
  | cons c cs ih => simpa [add_state] using ih (add_state d c)


/-- A fold of add_state calls leaves redo_stack empty whenever it starts
empty (and unconditionally after at least one call). -/
theorem foldl_add_state_redo {α : Type} (cs : List α) (d : LTDoc α)
    (h : d.redo_stack = []) : (cs.foldl add_state d).redo_stack = [] := by
  induction cs generalizing d with
  | nil => exact h
  | cons c cs ih => exact ih (add_state d c) rfl


/-- Dropping past an initial segment of an append. -/
theorem drop_append_add {α : Type} (l₁ l₂ : List α) (k : Nat) :
    (l₁ ++ l₂).drop (l₁.length + k) = l₂.drop k := by
  induction l₁ with
  | nil => simp
  | cons a t ih =>
    have h : t.length + 1 + k = (t.length + k) + 1 := by omega
    simp only [List.cons_append, List.length_cons, h, List.drop_succ_cons]
    exact ih


/-- C2: after more than max_states = 50 add_state calls on a document
whose undo_stack is within the bound (the data-model invariant, true of
every document the constructor produces), the stack holds exactly the 50
most recently recorded contents in order, and its length never exceeds 50
at any prefix of the sequence. -/
theorem history_bound {α : Type} (d : LTDoc α) (cs : List α)
    (hd : d.undo_stack.length ≤ max_states) (hk : max_states < cs.length) :
    (cs.foldl add_state d).undo_stack = cs.drop (cs.length - max_states) ∧
    ∀ n : Nat, ((cs.take n).foldl add_state d).undo_stack.length ≤ max_states := by
  constructor
  · rw [foldl_add_state_stack cs d hd]
    have h1 : (d.undo_stack ++ cs).length - max_states
        = d.undo_stack.length + (cs.length - max_states) := by
      simp only [List.length_append]; omega
    rw [h1, drop_append_add]
  · intro n
    rw [foldl_add_state_stack (cs.take n) d hd]
    simp only [List.length_drop]
    omega


/-- Witness for history_bound at a concrete document and 51 recorded
states. -/
theorem history_bound_witness :
    (((List.range 51).foldl add_state (mkDoc "d" 0 "t" "t")).undo_stack
      = (List.range 51).drop ((List.range 51).length - max_states)) :=
  (history_bound (mkDoc "d" 0 "t" "t") (List.range 51) (by decide) (by decide)).1


/-- Helper for C3: on any document with an empty redo_stack, a bounded
undo_stack that is either [content] or has at least two entries, redo
after undo returns the pre-undo top of undo_stack. -/
theorem redo_undo_top {α : Type} (d : LTDoc α)
    (hr : d.redo_stack = []) (hb : d.undo_stack.length ≤ max_states)
    (hc : d.undo_stack = [d.content] ∨ 1 < d.undo_stack.length) :
    (redo (undo d).1).2 = d.undo_stack.getLastD d.content := by
  rcases hc with hone | hlong
  · have hlen : ¬ 1 < d.undo_stack.length := by rw [hone]; simp
    simp [undo, hlen, redo, hr, hone]
  · have hu : (undo d).1 =
        { d with undo_stack := d.undo_stack.dropLast,
                 redo_stack := [d.undo_stack.getLastD d.content] } := by
      simp only [undo, if_pos hlong]
      simp [hr, max_states]
    rw [hu]
    have hx : d.undo_stack.dropLast.length + 1 ≤ max_states := by
      have := List.length_dropLast d.undo_stack
      omega
    simp [redo, Nat.not_lt.mpr hx]


/-- C3: for a document built by the constructor followed by any sequence
of add_state calls, redo after one undo returns exactly the pre-undo top
of undo_stack. -/
theorem history_undo_redo {α : Type} (nm cr md : String) (c0 : α) (cs : List α) :
    (redo (undo (cs.foldl add_state (mkDoc nm c0 cr md))).1).2 =
      (cs.foldl add_state (mkDoc nm c0 cr md)).undo_stack.getLastD
        (cs.foldl add_state (mkDoc nm c0 cr md)).content := by
  set d := cs.foldl add_state (mkDoc nm c0 cr md) with hdef
  have hstack0 : (mkDoc nm c0 cr md : LTDoc α).undo_stack = [c0] := rfl
  have hb0 : (mkDoc nm c0 cr md : LTDoc α).undo_stack.length ≤ max_states := by
    rw [hstack0]; simp [max_states]
  have hr : d.redo_stack = [] := foldl_add_state_redo cs _ rfl
  have hb : d.undo_stack.length ≤ max_states := by
    rw [hdef, foldl_add_state_stack cs _ hb0]
    simp only [List.length_drop]
    omega
  have hcnt : d.content = c0 := by
    rw [hdef, foldl_add_state_content]; rfl
  have hc : d.undo_stack = [d.content] ∨ 1 < d.undo_stack.length := by
    rw [hdef, foldl_add_state_stack cs _ hb0, hstack0]
    cases cs with
    | nil =>
      left
      rw [hcnt]
      simp [max_states]
    | cons c cs' =>
      right
      simp only [List.length_drop, List.length_append, List.length_singleton,
        List.length_cons, max_states]
      omega
  exact redo_undo_top d hr hb hc


/-- C4: add_state clears redo_stack unconditionally, discarding the
entire redoable future. -/
theorem record_clears_redo {α : Type} (d : LTDoc α) (c : α) :
    (add_state d c).redo_stack = [] := rfl


/-- C5 counterexample: commit an edit (content 1 over initial 0), then
undo once as undo_document does (the content field is not reassigned;
lines 2405-2417 only reload the editor). The document now has exactly one
undo entry, 0, but a second undo returns the content field 1, not the
sole entry. -/
theorem undo_floor_counterexample :
    ((undo ((undo (document_changed (mkDoc "d" (0 : Nat) "t" "t") 1 "t2")).1)).2 = 1) ∧
    ((undo (document_changed (mkDoc "d" (0 : Nat) "t" "t") 1 "t2")).1.undo_stack = [0]) ∧
    ((undo ((undo (document_changed (mkDoc "d" (0 : Nat) "t" "t") 1 "t2")).1)).2 ≠ 0) := by
  decide


/-- C5 amended: with exactly one undo entry, undo() mutates neither stack
and returns the document's content field (which coincides with the sole
entry only when content and history are in sync). -/
theorem undo_floor {α : Type} (d : LTDoc α) (h : d.undo_stack.length = 1) :
    undo d = (d, d.content) := by
  have : ¬ 1 < d.undo_stack.length := by omega
  simp [undo, this]


/-- Witness for undo_floor at a concrete out-of-sync document. -/
theorem undo_floor_witness :
    undo { name := "d", content := (7 : Nat), created := "t", modified := "t",
           undo_stack := [5], redo_stack := [] } =
      ({ name := "d", content := (7 : Nat), created := "t", modified := "t",
         undo_stack := [5], redo_stack := [] }, 7) :=
  undo_floor _ (by decide)


/-- C10: add_state, undo and redo mutate only the two stacks; name,
content, created and modified are untouched (in particular, after undo()
the content field still holds the pre-undo content). -/
theorem history_ops_frame {α : Type} (d : LTDoc α) (c : α) :
    ((add_state d c).name = d.name ∧ (add_state d c).content = d.content ∧
      (add_state d c).created = d.created ∧ (add_state d c).modified = d.modified) ∧
    ((undo d).1.name = d.name ∧ (undo d).1.content = d.content ∧
      (undo d).1.created = d.created ∧ (undo d).1.modified = d.modified) ∧
    ((redo d).1.name = d.name ∧ (redo d).1.content = d.content ∧
      (redo d).1.created = d.created ∧ (redo d).1.modified = d.modified) := by
  refine ⟨⟨rfl, rfl, rfl, rfl⟩, ?_, ?_⟩
  · unfold undo
    split <;> simp
  · unfold redo
    split <;> simp


theorem countOidL_append {α : Type} (o : Nat) (a b : List (WItem α)) :
    countOidL o (a ++ b) = countOidL o a + countOidL o b := by
  induction a with
  | nil => simp [countOidL]
  | cons it rest ih =>
    simp only [List.cons_append, countOidL, List.append_eq, ih]
    omega


theorem cntFL_append {α : Type} (fid : Nat) (a b : List (WItem α)) :
    cntFL fid (a ++ b) = cntFL fid a + cntFL fid b := by
  induction a with
  | nil => simp [cntFL]
  | cons it rest ih =>
    simp only [List.cons_append, cntFL, List.append_eq, ih]
    omega


theorem one_le_countOid1 {α : Type} (o : Nat) (it : WItem α) (h : it.oid = o) :
    1 ≤ countOid1 o it := by
  cases it with
  | doc o' d =>
    simp only [WItem.oid] at h
    simp [countOid1, h]
  | folder o' n c m its =>
    simp only [WItem.oid] at h
    simp [countOid1, h]


theorem mem_le_countOidL {α : Type} (o : Nat) (y : WItem α) :
    ∀ l : List (WItem α), y ∈ l → countOid1 o y ≤ countOidL o l := by
  intro l hmem
  induction l with
  | nil => cases hmem
  | cons it rest ih =>
    rcases List.mem_cons.mp hmem with h | h
    · subst h
      simp only [countOidL]
      omega
    · have := ih h
      simp only [countOidL]
      omega


mutual
theorem cntF1_le_countOid1 {α : Type} (fid : Nat) :
    ∀ it : WItem α, cntF1 fid it ≤ countOid1 fid it
  | .doc o d => by simp [cntF1, countOid1]
  | .folder o n c m its => by
    by_cases h : o = fid
    · simp only [cntF1, countOid1, if_pos h]
      omega
    · simp only [cntF1, countOid1, if_neg h]
      have := cntFL_le_countOidL fid its
      omega

theorem cntFL_le_countOidL {α : Type} (fid : Nat) :
    ∀ l : List (WItem α), cntFL fid l ≤ countOidL fid l
  | [] => Nat.le_refl _
  | it :: rest => by
    have h1 := cntF1_le_countOid1 fid it
    have h2 := cntFL_le_countOidL fid rest
    simp only [cntFL, countOidL]
    omega
end

mutual
theorem updFolder1_id {α : Type} (fid : Nat) (f : List (WItem α) → List (WItem α)) :
    ∀ it : WItem α, cntF1 fid it = 0 → updFolder1 fid f it = it
  | .doc o d, _ => rfl
  | .folder o n c m its, h => by
    have ho : ¬ o = fid := by
      intro he
      simp [cntF1, he] at h
    have h' : cntFL fid its = 0 := by simpa [cntF1, ho] using h
    simp [updFolder1, ho, updFolderL_id fid f its h']

theorem updFolderL_id {α : Type} (fid : Nat) (f : List (WItem α) → List (WItem α)) :
    ∀ l : List (WItem α), cntFL fid l = 0 → updFolderL fid f l = l
  | [], _ => rfl
  | it :: rest, h => by
    have h1 : cntF1 fid it = 0 := by
      simp only [cntFL] at h
      omega
    have h2 : cntFL fid rest = 0 := by
      simp only [cntFL] at h
      omega
    simp [updFolderL, updFolder1_id fid f it h1, updFolderL_id fid f rest h2]
end

mutual
theorem folderItems1_none {α : Type} (fid : Nat) :
    ∀ it : WItem α, cntF1 fid it = 0 → folderItems1 fid it = none
  | .doc _ _, _ => rfl
  | .folder o n c m its, h => by
    have ho : ¬ o = fid := by
      intro he
      simp [cntF1, he] at h
    have h' : cntFL fid its = 0 := by simpa [cntF1, ho] using h
    simp [folderItems1, ho, folderItems_none fid its h']

theorem folderItems_none {α : Type} (fid : Nat) :
    ∀ l : List (WItem α), cntFL fid l = 0 → folderItems fid l = none
  | [], _ => rfl
  | it :: rest, h => by
    have h1 : cntF1 fid it = 0 := by
      simp only [cntFL] at h
      omega
    have h2 : cntFL fid rest = 0 := by
      simp only [cntFL] at h
      omega
    simp [folderItems, folderItems1_none fid it h1, folderItems_none fid rest h2]
end

theorem folderItems_append {α : Type} (fid : Nat) (a b : List (WItem α)) :
    folderItems fid (a ++ b) =
      (match folderItems fid a with
       | some r => some r
       | none => folderItems fid b) := by
  induction a with
  | nil => simp [folderItems]
  | cons it rest ih =>
    simp only [List.cons_append, folderItems]
    cases folderItems1 fid it with
    | none => simpa using ih
    | some r => rfl


mutual
theorem folderItems1_count_le {α : Type} (fid o : Nat) :
    ∀ (it : WItem α) (its : List (WItem α)), folderItems1 fid it = some its →
      countOidL o its ≤ countOid1 o it
  | .doc _ _, its, h => by simp [folderItems1] at h
  | .folder o' n c m its0, its, h => by
    by_cases ho : o' = fid
    · simp only [folderItems1, if_pos ho, Option.some.injEq] at h
      subst h
      simp only [countOid1]
      omega
    · simp only [folderItems1, if_neg ho] at h
      have := folderItems_count_le fid o its0 its h
      simp only [countOid1]
      omega

theorem folderItems_count_le {α : Type} (fid o : Nat) :
    ∀ (l : List (WItem α)) (its : List (WItem α)), folderItems fid l = some its →
      countOidL o its ≤ countOidL o l
  | [], its, h => by simp [folderItems] at h
  | it :: rest, its, h => by
    simp only [folderItems] at h
    cases hit : folderItems1 fid it with
    | some r =>
      rw [hit] at h
      simp only [Option.some.injEq] at h
      subst h
      have := folderItems1_count_le fid o it r hit
      simp only [countOidL]
      omega
    | none =>
      rw [hit] at h
      simp only at h
      have := folderItems_count_le fid o rest its h
      simp only [countOidL]
      omega
end

mutual
theorem countOid1_setModified1 {α : Type} (o d : Nat) (now : String) :
    ∀ it : WItem α, countOid1 o (setModified1 d now it) = countOid1 o it
  | .doc o' dd => by
    by_cases h : o' = d <;> simp [setModified1, countOid1, h]
  | .folder o' n c m its => by
    by_cases h : o' = d
    · simp [setModified1, countOid1, h]
    · simp [setModified1, countOid1, h, countOidL_setModifiedL o d now its]

theorem countOidL_setModifiedL {α : Type} (o d : Nat) (now : String) :
    ∀ l : List (WItem α), countOidL o (setModifiedL d now l) = countOidL o l
  | [] => rfl
  | it :: rest => by
    simp [setModifiedL, countOidL, countOid1_setModified1 o d now it,
      countOidL_setModifiedL o d now rest]
end

theorem setModifiedL_append {α : Type} (d : Nat) (now : String) (a b : List (WItem α)) :
    setModifiedL d now (a ++ b) = setModifiedL d now a ++ setModifiedL d now b := by
  induction a with
  | nil => rfl
  | cons it rest ih => simp [setModifiedL, ih]


/-- An indexed element is a member. -/
theorem memOfGet {γ : Type} (l : List γ) (a : γ) (i : Nat) (h : l[i]? = some a) :
    a ∈ l := by
  obtain ⟨hlt, he⟩ := List.getElem?_eq_some.mp h
  exact he ▸ List.getElem_mem hlt


mutual
/-- Single-match update specification, item form: in an item whose
subtree holds exactly one outermost folder with the given oid, the
update by f changes oid counts exactly by the change f makes to that
folder's items, afterwards the folder is found with the updated items
and is still the unique match, and every other folder-oid count is
either untouched or changed exactly by the list change. -/
theorem upd_spec1 {α : Type} (fid : Nat) :
    ∀ it : WItem α, cntF1 fid it = 1 →
      ∃ its, folderItems1 fid it = some its ∧
        ∀ f : List (WItem α) → List (WItem α),
          (∀ o, countOid1 o (updFolder1 fid f it) + countOidL o its
              = countOid1 o it + countOidL o (f its)) ∧
          folderItems1 fid (updFolder1 fid f it) = some (f its) ∧
          cntF1 fid (updFolder1 fid f it) = 1 ∧
          (∀ g, g ≠ fid →
            cntF1 g (updFolder1 fid f it) = cntF1 g it ∨
            cntF1 g (updFolder1 fid f it) + cntFL g its = cntF1 g it + cntFL g (f its))
  | .doc o d, h => by simp [cntF1] at h
  | .folder o n c m its0, h => by
    by_cases ho : o = fid
    · refine ⟨its0, by simp [folderItems1, ho], fun f => ⟨?_, ?_, ?_, ?_⟩⟩
      · intro o'
        simp only [updFolder1, if_pos ho, countOid1]
        omega
      · simp [updFolder1, folderItems1, ho]
      · simp [updFolder1, cntF1, ho]
      · intro g hg
        right
        have hog : ¬ o = g := fun he => hg (he.symm.trans ho)
        simp only [updFolder1, if_pos ho, cntF1, if_neg hog]
        omega
    · have h' : cntFL fid its0 = 1 := by simpa [cntF1, ho] using h
      obtain ⟨its, hfi, hspec⟩ := upd_specL fid its0 h'
      refine ⟨its, by simp [folderItems1, ho, hfi], fun f => ?_⟩
      obtain ⟨hcnt, hpost, hone, hg⟩ := hspec f
      refine ⟨?_, ?_, ?_, ?_⟩
      · intro o'
        simp only [updFolder1, if_neg ho, countOid1]
        have := hcnt o'
        omega
      · simp [updFolder1, folderItems1, ho, hpost]
      · simp [updFolder1, cntF1, ho, hone]
      · intro g hgne
        by_cases hog : o = g
        · left
          simp only [updFolder1, if_neg ho, cntF1, if_pos hog]
        · rcases hg g hgne with hl | hr
          · left
            simp only [updFolder1, if_neg ho, cntF1, if_neg hog, hl]
          · right
            simp only [updFolder1, if_neg ho, cntF1, if_neg hog]
            omega

/-- Single-match update specification, forest form. -/
theorem upd_specL {α : Type} (fid : Nat) :
    ∀ l : List (WItem α), cntFL fid l = 1 →
      ∃ its, folderItems fid l = some its ∧
        ∀ f : List (WItem α) → List (WItem α),
          (∀ o, countOidL o (updFolderL fid f l) + countOidL o its
              = countOidL o l + countOidL o (f its)) ∧
          folderItems fid (updFolderL fid f l) = some (f its) ∧
          cntFL fid (updFolderL fid f l) = 1 ∧
          (∀ g, g ≠ fid →
            cntFL g (updFolderL fid f l) = cntFL g l ∨
            cntFL g (updFolderL fid f l) + cntFL g its = cntFL g l + cntFL g (f its))
  | [], h => by simp [cntFL] at h
  | it :: rest, h => by
    have hsum : cntF1 fid it + cntFL fid rest = 1 := h
    have hcases : cntF1 fid it = 1 ∧ cntFL fid rest = 0 ∨
        cntF1 fid it = 0 ∧ cntFL fid rest = 1 := by omega
    rcases hcases with ⟨h1, h2⟩ | ⟨h1, h2⟩
    · obtain ⟨its, hfi, hspec⟩ := upd_spec1 fid it h1
      refine ⟨its, by simp [folderItems, hfi], fun f => ?_⟩
      obtain ⟨hcnt, hpost, hone, hg⟩ := hspec f
      have hrest : updFolderL fid f rest = rest := updFolderL_id fid f rest h2
      refine ⟨?_, ?_, ?_, ?_⟩
      · intro o'
        simp only [updFolderL, countOidL, hrest]
        have := hcnt o'
        omega
      · simp [updFolderL, folderItems, hpost]
      · simp only [updFolderL, cntFL, hrest, hone]
        omega
      · intro g hgne
        rcases hg g hgne with hl | hr
        · left
          simp only [updFolderL, cntFL, hrest, hl]
        · right
          simp only [updFolderL, cntFL, hrest]
          omega
    · obtain ⟨its, hfi, hspec⟩ := upd_specL fid rest h2
      have hit1 : ∀ f, updFolder1 fid f it = it := fun f => updFolder1_id fid f it h1
      have hfn : folderItems1 fid it = none := folderItems1_none fid it h1
      refine ⟨its, by simp [folderItems, hfn, hfi], fun f => ?_⟩
      obtain ⟨hcnt, hpost, hone, hg⟩ := hspec f
      refine ⟨?_, ?_, ?_, ?_⟩
      · intro o'
        simp only [updFolderL, countOidL, hit1]
        have := hcnt o'
        omega
      · simp [updFolderL, folderItems, hit1, hfn, hpost]
      · simp only [updFolderL, cntFL, hit1, hone, h1]
      · intro g hgne
        rcases hg g hgne with hl | hr
        · left
          simp only [updFolderL, cntFL, hit1, hl]
        · right
          simp only [updFolderL, cntFL, hit1]
          omega
end

mutual
/-- setModified1 preserves where a folder's items are found: the found
list is either untouched (when the search stops above or at a stamped
item) or is the setModifiedL image of the original. -/
theorem sm_folderItems1 {α : Type} (fid d : Nat) (now : String) :
    ∀ it : WItem α,
      (folderItems1 fid it = none → folderItems1 fid (setModified1 d now it) = none) ∧
      (∀ its, folderItems1 fid it = some its →
        ∃ its', folderItems1 fid (setModified1 d now it) = some its' ∧
          (its' = its ∨ its' = setModifiedL d now its))
  | .doc o dd => by
    constructor
    · intro _
      by_cases h : o = d <;> simp [setModified1, folderItems1, h]
    · intro its h
      simp [folderItems1] at h
  | .folder o n c m its0 => by
    by_cases hod : o = d
    · have hsm : setModified1 d now (WItem.folder o n c m its0)
          = WItem.folder o n c now its0 := by
        simp [setModified1, hod]
      constructor
      · intro h
        rw [hsm]
        by_cases hof : o = fid
        · simp [folderItems1, hof] at h
        · simp only [folderItems1, if_neg hof] at h ⊢
          exact h
      · intro its h
        rw [hsm]
        by_cases hof : o = fid
        · simp only [folderItems1, if_pos hof, Option.some.injEq] at h
          refine ⟨its0, ?_, Or.inl h⟩
          simp [folderItems1, hof]
        · simp only [folderItems1, if_neg hof] at h ⊢
          exact ⟨its, h, Or.inl rfl⟩
    · have hsm : setModified1 d now (WItem.folder o n c m its0)
          = WItem.folder o n c m (setModifiedL d now its0) := by
        simp [setModified1, hod]
      constructor
      · intro h
        rw [hsm]
        by_cases hof : o = fid
        · simp [folderItems1, hof] at h
        · simp only [folderItems1, if_neg hof] at h ⊢
          exact (sm_folderItems fid d now its0).1 h
      · intro its h
        rw [hsm]
        by_cases hof : o = fid
        · simp only [folderItems1, if_pos hof, Option.some.injEq] at h
          refine ⟨setModifiedL d now its0, ?_, ?_⟩
          · simp [folderItems1, hof]
          · right
            rw [h]
        · simp only [folderItems1, if_neg hof] at h ⊢
          exact (sm_folderItems fid d now its0).2 its h

/-- Forest form of sm_folderItems1. -/
theorem sm_folderItems {α : Type} (fid d : Nat) (now : String) :
    ∀ l : List (WItem α),
      (folderItems fid l = none → folderItems fid (setModifiedL d now l) = none) ∧
      (∀ its, folderItems fid l = some its →
        ∃ its', folderItems fid (setModifiedL d now l) = some its' ∧
          (its' = its ∨ its' = setModifiedL d now its))
  | [] => by
    constructor
    · intro _; rfl
    · intro its h
      simp [folderItems] at h
  | it :: rest => by
    constructor
    · intro h
      simp only [folderItems] at h
      cases hit : folderItems1 fid it with
      | some r => rw [hit] at h; simp at h
      | none =>
        rw [hit] at h
        simp only at h
        have h1 := (sm_folderItems1 fid d now it).1 hit
        have h2 := (sm_folderItems fid d now rest).1 h
        simp [setModifiedL, folderItems, h1, h2]
    · intro its h
      simp only [folderItems] at h
      cases hit : folderItems1 fid it with
      | some r =>
        rw [hit] at h
        simp only [Option.some.injEq] at h
        obtain ⟨its', hpost, hdisj⟩ := (sm_folderItems1 fid d now it).2 r hit
        refine ⟨its', by simp [setModifiedL, folderItems, hpost], ?_⟩
        rw [← h]
        exact hdisj
      | none =>
        rw [hit] at h
        simp only at h
        have h1 := (sm_folderItems1 fid d now it).1 hit
        obtain ⟨its', hpost, hdisj⟩ := (sm_folderItems fid d now rest).2 its h
        exact ⟨its', by simp [setModifiedL, folderItems, h1, hpost], hdisj⟩
end

/-- A path-resolved item contributes its oid to the forest count. -/
theorem getL_count_ge {α : Type} (o : Nat) :
    ∀ (p : List Nat) (l : List (WItem α)) (x : WItem α),
      getL l p = some x → x.oid = o → 1 ≤ countOidL o l
  | [], l, x => by
    intro h _
    simp [getL] at h
  | i :: rest, l, x => by
    intro h hoid
    simp only [getL] at h
    cases hgi : l[i]? with
    | none => rw [hgi] at h; simp at h
    | some it =>
      rw [hgi] at h
      cases rest with
      | nil =>
        simp only [Option.some.injEq] at h
        rw [← h] at hoid
        have hmem := memOfGet l it i hgi
        have h1 := one_le_countOid1 o it hoid
        have h2 := mem_le_countOidL o it l hmem
        omega
      | cons j rest' =>
        cases it with
        | doc o' d => simp at h
        | folder o' n c m its =>
          have h1 := getL_count_ge o (j :: rest') its x h hoid
          have hmem := memOfGet l _ i hgi
          have h2 := mem_le_countOidL o _ l hmem
          simp only [countOid1] at h2
          omega


/-- Linking a getL-resolved folder to the folderItems accessor: when the
folder oid occurs exactly once in the forest, folderItems finds exactly
the getL-resolved folder's items, and it is the unique outermost
match. -/
theorem getL_folderItems {α : Type} :
    ∀ (p : List Nat) (forest : List (WItem α)) (po : Nat) (n c m : String)
      (pits : List (WItem α)),
      getL forest p = some (.folder po n c m pits) → countOidL po forest = 1 →
      folderItems po forest = some pits ∧ cntFL po forest = 1
  | [], forest, po, n, c, m, pits => by
    intro h _
    simp [getL] at h
  | i :: rest, forest, po, n, c, m, pits => by
    intro h hcnt
    simp only [getL] at h
    cases hgi : forest[i]? with
    | none => rw [hgi] at h; simp at h
    | some it =>
      rw [hgi] at h
      cases rest with
      | nil =>
        simp only [Option.some.injEq] at h
        subst h
        obtain ⟨s, t, hst⟩ := List.append_of_mem (memOfGet forest _ i hgi)
        rw [hst] at hcnt ⊢
        rw [countOidL_append] at hcnt
        have hone : countOid1 po (WItem.folder po n c m pits)
            = 1 + countOidL po pits := by simp [countOid1]
        have hcnt2 : countOidL po (WItem.folder po n c m pits :: t)
            = countOid1 po (WItem.folder po n c m pits) + countOidL po t := rfl
        rw [hcnt2, hone] at hcnt
        have hs0 : countOidL po s = 0 := by omega
        have ht0 : countOidL po t = 0 := by omega
        have hsF : cntFL po s = 0 := by
          have := cntFL_le_countOidL po s
          omega
        have htF : cntFL po t = 0 := by
          have := cntFL_le_countOidL po t
          omega
        constructor
        · rw [folderItems_append]
          rw [folderItems_none po s hsF]
          simp [folderItems, folderItems1]
        · rw [cntFL_append]
          have : cntFL po (WItem.folder po n c m pits :: t)
              = cntF1 po (WItem.folder po n c m pits) + cntFL po t := rfl
          rw [this, hsF, htF]
          simp [cntF1]
      | cons j rest' =>
        cases it with
        | doc o' d => simp at h
        | folder o' n' c' m' its' =>
          have hge : 1 ≤ countOidL po its' :=
            getL_count_ge po (j :: rest') its' _ h rfl
          have hmem := memOfGet forest _ i hgi
          have hle := mem_le_countOidL po _ forest hmem
          have hcc : countOid1 po (WItem.folder o' n' c' m' its')
              = (if o' = po then 1 else 0) + countOidL po its' := rfl
          have ho' : ¬ o' = po := by
            intro he
            rw [hcc, if_pos he] at hle
            omega
          have hits1 : countOidL po its' = 1 := by
            rw [hcc, if_neg ho'] at hle
            omega
          obtain ⟨hfi, hcf⟩ := getL_folderItems (j :: rest') its' po n c m pits h hits1
          obtain ⟨s, t, hst⟩ := List.append_of_mem hmem
          rw [hst] at hcnt ⊢
          rw [countOidL_append] at hcnt
          have hcnt2 : countOidL po (WItem.folder o' n' c' m' its' :: t)
              = countOid1 po (WItem.folder o' n' c' m' its') + countOidL po t := rfl
          rw [hcnt2, hcc, if_neg ho'] at hcnt
          have hs0 : countOidL po s = 0 := by omega
          have ht0 : countOidL po t = 0 := by omega
          have hsF : cntFL po s = 0 := by
            have := cntFL_le_countOidL po s
            omega
          have htF : cntFL po t = 0 := by
            have := cntFL_le_countOidL po t
            omega
          constructor
          · rw [folderItems_append]
            rw [folderItems_none po s hsF]
            simp [folderItems, folderItems1, ho', hfi]
          · rw [cntFL_append]
            have : cntFL po (WItem.folder o' n' c' m' its' :: t)
                = cntF1 po (WItem.folder o' n' c' m' its') + cntFL po t := rfl
            rw [this, hsF, htF]
            simp [cntF1, ho', hcf]


/-- list.remove removes exactly the unique oid match: decomposition of
the list around it. -/
theorem eraseOid_decomp {α : Type} (d : Nat) (y : WItem α) :
    ∀ l : List (WItem α), y ∈ l → y.oid = d → countOidL d l ≤ 1 →
      ∃ l1 l2, l = l1 ++ y :: l2 ∧ eraseOid d l = l1 ++ l2
  | [] => by intro h; cases h
  | it :: rest => by
    intro hmem hoid hcnt
    have hsum : countOidL d (it :: rest) = countOid1 d it + countOidL d rest := rfl
    by_cases hit : it.oid = d
    · have h1 : 1 ≤ countOid1 d it := one_le_countOid1 d it hit
      have hy : y = it := by
        by_contra hne
        have hmem' : y ∈ rest := by
          rcases List.mem_cons.mp hmem with h | h
          · exact absurd h hne
          · exact h
        have h2 := mem_le_countOidL d y rest hmem'
        have h3 := one_le_countOid1 d y hoid
        omega
      refine ⟨[], rest, ?_, ?_⟩
      · rw [hy]
        rfl
      · simp [eraseOid, hit]
    · have hyne : y ≠ it := fun he => hit (he ▸ hoid)
      have hmem' : y ∈ rest := by
        rcases List.mem_cons.mp hmem with h | h
        · exact absurd h hyne
        · exact h
      have hcnt' : countOidL d rest ≤ 1 := by omega
      obtain ⟨l1, l2, he, her⟩ := eraseOid_decomp d y rest hmem' hoid hcnt'
      exact ⟨it :: l1, l2, by rw [he]; rfl, by simp [eraseOid, hit, her]⟩


/-- One-step unfolding of getL on a path of length at least two. -/
theorem getL_cons2 {α : Type} (l : List (WItem α)) (a b : Nat) (q : List Nat) :
    getL l (a :: b :: q) =
      (match l[a]? with
       | some (.folder _ _ _ _ its) => getL its (b :: q)
       | _ => none) := by
  show (match l[a]? with
    | none => none
    | some it =>
      match it with
      | .doc _ _ => none
      | .folder _ _ _ _ its => getL its (b :: q)) = _
  cases l[a]? with
  | none => rfl
  | some it => cases it <;> rfl


/-- getL on a singleton path is the top-level index lookup. -/
theorem getL_one {α : Type} (l : List (WItem α)) (a : Nat) : getL l [a] = l[a]? := by
  show (match l[a]? with | none => none | some it => some it) = l[a]?
  cases l[a]? <;> rfl


/-- An item resolved at a path of depth at least two is a member of its
widget parent's items. -/
theorem getL_parent_mem {α : Type} :
    ∀ (p : List Nat) (forest : List (WItem α)) (x : WItem α) (po : Nat)
      (n c m : String) (pits : List (WItem α)),
      getL forest p = some x → 2 ≤ p.length →
      getL forest p.dropLast = some (.folder po n c m pits) → x ∈ pits
  | [], _, _, _, _, _, _, _ => by
    intro h _ _
    simp [getL] at h
  | [_], _, _, _, _, _, _, _ => by
    intro _ hlen _
    simp at hlen
  | i :: j :: rest', forest, x, po, n, c, m, pits => by
    intro h hlen hpar
    rw [getL_cons2] at h
    cases hgi : forest[i]? with
    | none =>
      rw [hgi] at h
      simp at h
    | some it =>
      rw [hgi] at h
      cases it with
      | doc o' d => simp at h
      | folder o' n' c' m' its' =>
        simp only at h
        cases rest' with
        | nil =>
          have hpar1 : getL forest [i] = some (WItem.folder po n c m pits) := hpar
          rw [getL_one, hgi] at hpar1
          simp only [Option.some.injEq] at hpar1
          cases hpar1
          rw [getL_one] at h
          exact memOfGet _ x j h
        | cons k rest'' =>
          have hpar2 : getL its' ((j :: k :: rest'').dropLast)
              = some (WItem.folder po n c m pits) := by
            have hpar' : getL forest (i :: j :: (k :: rest'').dropLast)
                = some (WItem.folder po n c m pits) := hpar
            rw [getL_cons2, hgi] at hpar'
            exact hpar'
          exact getL_parent_mem (j :: k :: rest'') its' x po n c m pits h
            (by simp) hpar2


/-- A path-resolved item's subtree count is bounded by the forest
count. -/
theorem getL_count_le {α : Type} (o : Nat) :
    ∀ (p : List Nat) (l : List (WItem α)) (x : WItem α),
      getL l p = some x → countOid1 o x ≤ countOidL o l
  | [], l, x => by
    intro h
    simp [getL] at h
  | i :: rest, l, x => by
    intro h
    simp only [getL] at h
    cases hgi : l[i]? with
    | none => rw [hgi] at h; simp at h
    | some it =>
      rw [hgi] at h
      cases rest with
      | nil =>
        simp only [Option.some.injEq] at h
        have hmem := memOfGet l it i hgi
        have h2 := mem_le_countOidL o it l hmem
        rw [← h]
        exact h2
      | cons j rest' =>
        cases it with
        | doc o' d => simp at h
        | folder o' n c m its =>
          have h1 := getL_count_le o (j :: rest') its x h
          have hmem := memOfGet l _ i hgi
          have h2 := mem_le_countOidL o _ l hmem
          simp only [countOid1] at h2
          omega


/-- Two distinct top-level positions contribute separately to the
forest count. -/
theorem two_idx_count {α : Type} (o : Nat) :
    ∀ (l : List (WItem α)) (i j : Nat) (x y : WItem α), i ≠ j →
      l[i]? = some x → l[j]? = some y →
      countOid1 o x + countOid1 o y ≤ countOidL o l
  | [], i, j, x, y => by
    intro _ hx _
    simp at hx
  | it :: rest, i, j, x, y => by
    intro hne hx hy
    have hsum : countOidL o (it :: rest) = countOid1 o it + countOidL o rest := rfl
    cases i with
    | zero =>
      cases j with
      | zero => exact absurd rfl hne
      | succ j' =>
        simp only [List.getElem?_cons_zero, Option.some.injEq] at hx
        simp only [List.getElem?_cons_succ] at hy
        have h1 := mem_le_countOidL o y rest (memOfGet rest y j' hy)
        rw [← hx, hsum]
        omega
    | succ i' =>
      cases j with
      | zero =>
        simp only [List.getElem?_cons_zero, Option.some.injEq] at hy
        simp only [List.getElem?_cons_succ] at hx
        have h1 := mem_le_countOidL o x rest (memOfGet rest x i' hx)
        rw [← hy, hsum]
        omega
      | succ j' =>
        simp only [List.getElem?_cons_succ] at hx hy
        have h1 := two_idx_count o rest i' j' x y (by omega) hx hy
        rw [hsum]
        omega


/-- In a forest where an oid occurs exactly once, any item whose subtree
contains that oid sits on the widget-parent chain of the occurrence: the
path of the containing item leads the path of the oid match. This turns
the drop handler's passed cycle check (the target is not the dragged
folder or one of its descendants) into the count fact the atomicity
argument needs. -/
theorem subtree_pathLe {α : Type} (o : Nat) :
    ∀ (p q : List Nat) (forest : List (WItem α)) (y z : WItem α),
      getL forest p = some y → getL forest q = some z → z.oid = o →
      1 ≤ countOid1 o y → countOidL o forest = 1 → pathLe p q = true
  | [], q, forest, y, z => by
    intro hy _ _ _ _
    simp [getL] at hy
  | i :: p', q, forest, y, z => by
    intro hy hz hzo hcy hu
    cases q with
    | nil => simp [getL] at hz
    | cons j q' =>
      have hyiE : ∃ yi, forest[i]? = some yi := by
        cases hgi : forest[i]? with
        | none =>
          exfalso
          cases p' with
          | nil =>
            rw [getL_one, hgi] at hy
            exact Option.noConfusion hy
          | cons a p'' =>
            rw [getL_cons2, hgi] at hy
            exact Option.noConfusion hy
        | some yi => exact ⟨yi, rfl⟩
      obtain ⟨yi, hgi⟩ := hyiE
      have hyi1 : 1 ≤ countOid1 o yi := by
        cases p' with
        | nil =>
          rw [getL_one, hgi] at hy
          simp only [Option.some.injEq] at hy
          rw [hy]
          exact hcy
        | cons a p'' =>
          rw [getL_cons2, hgi] at hy
          cases yi with
          | doc o2 d2 => simp at hy
          | folder o2 n2 c2 m2 its2 =>
            simp only at hy
            have hle := getL_count_le o (a :: p'') its2 y hy
            have heq : countOid1 o (WItem.folder o2 n2 c2 m2 its2)
                = (if o2 = o then 1 else 0) + countOidL o its2 := rfl
            rw [heq]
            by_cases ho2 : o2 = o
            · rw [if_pos ho2]
              omega
            · rw [if_neg ho2]
              omega
      have hzjE : ∃ zj, forest[j]? = some zj ∧ 1 ≤ countOid1 o zj := by
        cases hgj : forest[j]? with
        | none =>
          exfalso
          cases q' with
          | nil =>
            rw [getL_one, hgj] at hz
            exact Option.noConfusion hz
          | cons b q'' =>
            rw [getL_cons2, hgj] at hz
            exact Option.noConfusion hz
        | some zj =>
          refine ⟨zj, rfl, ?_⟩
          cases q' with
          | nil =>
            rw [getL_one, hgj] at hz
            simp only [Option.some.injEq] at hz
            rw [hz]
            exact one_le_countOid1 o z hzo
          | cons b q'' =>
            rw [getL_cons2, hgj] at hz
            cases zj with
            | doc o2 d2 => simp at hz
            | folder o2 n2 c2 m2 its2 =>
              simp only at hz
              have hge := getL_count_ge o (b :: q'') its2 z hz hzo
              have heq : countOid1 o (WItem.folder o2 n2 c2 m2 its2)
                  = (if o2 = o then 1 else 0) + countOidL o its2 := rfl
              rw [heq]
              by_cases ho2 : o2 = o
              · rw [if_pos ho2]
                omega
              · rw [if_neg ho2]
                omega
      obtain ⟨zj, hgj, hzj1⟩ := hzjE
      have hij : i = j := by
        by_contra hne
        have hD := two_idx_count o forest i j yi zj hne hgi hgj
        omega
      subst hij
      have hzy : zj = yi := by
        rw [hgi] at hgj
        exact (Option.some.inj hgj).symm
      subst hzy
      show (i == i && pathLe p' q') = true
      simp only [beq_self_eq_true, Bool.true_and]
      cases p' with
      | nil => rfl
      | cons a p'' =>
        rw [getL_cons2, hgi] at hy
        cases zj with
        | doc o2 d2 => simp at hy
        | folder o2 n2 c2 m2 its2 =>
          simp only at hy
          have hley : countOid1 o y ≤ countOidL o its2 :=
            getL_count_le o (a :: p'') its2 y hy
          have hmemi := memOfGet forest _ i hgi
          have hlei := mem_le_countOidL o _ forest hmemi
          have heq : countOid1 o (WItem.folder o2 n2 c2 m2 its2)
              = (if o2 = o then 1 else 0) + countOidL o its2 := rfl
          have hits1 : countOidL o its2 = 1 := by
            by_cases ho2 : o2 = o
            · rw [heq, if_pos ho2] at hlei
              omega
            · rw [heq, if_neg ho2] at hlei
              omega
          cases q' with
          | nil =>
            exfalso
            rw [getL_one, hgi] at hz
            simp only [Option.some.injEq] at hz
            have ho2 : o2 = o := by
              rw [← hz] at hzo
              exact hzo
            rw [heq, if_pos ho2] at hlei
            omega
          | cons b q'' =>
            rw [getL_cons2, hgi] at hz
            simp only at hz
            exact subtree_pathLe o (a :: p'') (b :: q'') its2 y z hy hz hzo hcy hits1


/-- The shared remove-then-insert core of tree_drop_event and
move_to_trash: removing the uniquely identified dragged item from its
parent folder and appending it tfo the destination folder leaves exactly
one copy overall, sitting at the end of the destination folder's items.
The hypothesis cntF1 tfo ddata = 0 records that the destination folder
is not part of the dragged subtree (a document has no subtree; for a
folder drag the drop handler's cycle check guarantees it). -/
theorem remove_insert_spec {α : Type} (forest : List (WItem α)) (dragged tpath : List Nat)
    (ddata : WItem α) (po tfo : Nat) (pn pc pm tn tc tm : String)
    (pits tits : List (WItem α))
    (hd : getL forest dragged = some ddata)
    (hlen : 2 ≤ dragged.length)
    (hpar : getL forest dragged.dropLast = some (.folder po pn pc pm pits))
    (ht : getL forest tpath = some (.folder tfo tn tc tm tits))
    (hnf : cntF1 tfo ddata = 0)
    (hu_d : countOidL ddata.oid forest = 1)
    (hu_po : countOidL po forest = 1)
    (hu_to : countOidL tfo forest = 1) :
    countOidL ddata.oid (updFolderL po (eraseOid ddata.oid) forest) = 0 ∧
    ∃ its1,
      folderItems tfo (updFolderL tfo (fun l => l ++ [ddata])
          (updFolderL po (eraseOid ddata.oid) forest))
        = some (its1 ++ [ddata]) ∧
      countOidL ddata.oid its1 = 0 ∧
      countOidL ddata.oid (updFolderL tfo (fun l => l ++ [ddata])
          (updFolderL po (eraseOid ddata.oid) forest)) = 1 := by
  obtain ⟨hfip, hcfp⟩ := getL_folderItems dragged.dropLast forest po pn pc pm pits hpar hu_po
  obtain ⟨hfit, hcft⟩ := getL_folderItems tpath forest tfo tn tc tm tits ht hu_to
  have hmem : ddata ∈ pits :=
    getL_parent_mem dragged forest _ po pn pc pm pits hd hlen hpar
  obtain ⟨itsP, hfiP, hspecP⟩ := upd_specL po forest hcfp
  have hitsP : itsP = pits := by
    rw [hfiP] at hfip
    exact (Option.some.injEq _ _ ▸ hfip)
  rw [hitsP] at hfiP hspecP
  obtain ⟨hcntP, hpostP, honeP, hgP⟩ := hspecP (eraseOid ddata.oid)
  have hple : countOidL ddata.oid pits ≤ 1 := by
    have := folderItems_count_le po ddata.oid forest pits hfiP
    omega
  obtain ⟨l1, l2, hpe, her⟩ := eraseOid_decomp ddata.oid ddata pits hmem rfl hple
  have hdd1 : countOid1 ddata.oid ddata = 1 := by
    have h1 := one_le_countOid1 ddata.oid ddata rfl
    have h2 := getL_count_le ddata.oid dragged forest ddata hd
    omega
  have hpcnt : countOidL ddata.oid pits
      = countOidL ddata.oid l1 + 1 + countOidL ddata.oid l2 := by
    rw [hpe, countOidL_append]
    have : countOidL ddata.oid (ddata :: l2)
        = countOid1 ddata.oid ddata + countOidL ddata.oid l2 := rfl
    rw [this, hdd1]
    omega
  have hecnt : countOidL ddata.oid (eraseOid ddata.oid pits)
      = countOidL ddata.oid l1 + countOidL ddata.oid l2 := by
    rw [her, countOidL_append]
  have hf1d : countOidL ddata.oid (updFolderL po (eraseOid ddata.oid) forest) = 0 := by
    have := hcntP ddata.oid
    omega
  refine ⟨hf1d, ?_⟩
  have hto1 : cntFL tfo (updFolderL po (eraseOid ddata.oid) forest) = 1 := by
    by_cases hpt : tfo = po
    · rw [hpt]
      exact honeP
    · rcases hgP tfo hpt with hl | hr
      · rw [hl]
        exact hcft
      · have hpf : cntFL tfo pits = cntFL tfo l1 + cntFL tfo l2 := by
          rw [hpe, cntFL_append]
          have h5 : cntFL tfo (ddata :: l2)
              = cntF1 tfo ddata + cntFL tfo l2 := rfl
          rw [h5, hnf]
          omega
        have hef : cntFL tfo (eraseOid ddata.oid pits) = cntFL tfo l1 + cntFL tfo l2 := by
          rw [her, cntFL_append]
        omega
  obtain ⟨its1, hfi1, hspec1⟩ := upd_specL tfo _ hto1
  obtain ⟨hcnt1, hpost1, hone1, hg1⟩ := hspec1 (fun l => l ++ [ddata])
  have hits1d : countOidL ddata.oid its1 = 0 := by
    have := folderItems_count_le tfo ddata.oid _ its1 hfi1
    omega
  refine ⟨its1, hpost1, hits1d, ?_⟩
  have hap : countOidL ddata.oid (its1 ++ [ddata])
      = countOidL ddata.oid its1 + 1 := by
    rw [countOidL_append]
    have : countOidL ddata.oid [ddata]
        = countOid1 ddata.oid ddata + countOidL ddata.oid [] := rfl
    rw [this, hdd1]
    rfl
  have := hcnt1 ddata.oid
  omega


/-- C6 amended: a folder dragged onto itself or a descendant is rejected
silently (the event is ignored; no exception is raised) before any
mutation; and a non-rejected drop of any item — document or folder —
that sits inside a folder onto a folder target moves it atomically:
afterwards exactly one copy exists, and it lies in the target folder's
items. (Dragging one of the three top-level folders is not covered: it
is not removed from the top level and ends up duplicated, see the
counterexample.) -/
theorem tree_drop_spec {α : Type} :
    (∀ (now : String) (forest : List (WItem α)) (dragged target : List Nat)
        (ddata : WItem α),
        getL forest dragged = some ddata → ddata.isFolder = true →
        pathLe dragged target = true →
        tree_drop_event now forest dragged target = none) ∧
    (∀ (now : String) (forest : List (WItem α)) (dragged target : List Nat)
        (ddata : WItem α) (po tfo : Nat) (pn pc pm tn tc tm : String)
        (pits tits : List (WItem α)),
        getL forest dragged = some ddata →
        pathLe dragged target = false →
        2 ≤ dragged.length →
        getL forest dragged.dropLast = some (WItem.folder po pn pc pm pits) →
        getL forest target = some (WItem.folder tfo tn tc tm tits) →
        countOidL ddata.oid forest = 1 → countOidL po forest = 1 →
        countOidL tfo forest = 1 →
        ∃ forest' its', tree_drop_event now forest dragged target = some forest' ∧
          countOidL ddata.oid forest' = 1 ∧ folderItems tfo forest' = some its' ∧
          countOidL ddata.oid its' = 1) := by
  constructor
  · intro now forest dragged target ddata hd hf hp
    cases ht : getL forest target with
    | none => simp [tree_drop_event, hd, ht]
    | some tdata => simp [tree_drop_event, hd, ht, hf, hp]
  · intro now forest dragged target ddata po tfo pn pc pm tn tc tm pits tits
      hd hnc hlen hpar ht hu_d hu_po hu_tfo
    have hnest : countOid1 tfo ddata = 0 := by
      by_contra hpos
      have h1 : 1 ≤ countOid1 tfo ddata := by omega
      have h2 := subtree_pathLe tfo dragged target forest ddata
        (WItem.folder tfo tn tc tm tits) hd ht rfl h1 hu_tfo
      rw [hnc] at h2
      exact Bool.noConfusion h2
    have hnf : cntF1 tfo ddata = 0 := by
      have := cntF1_le_countOid1 tfo ddata
      omega
    obtain ⟨hf1d, its1, hpost1, hits1d, hf2d⟩ :=
      remove_insert_spec forest dragged target ddata po tfo pn pc pm tn tc tm
        pits tits hd hlen hpar ht hnf hu_d hu_po hu_tfo
    have hres : tree_drop_event now forest dragged target
        = some (setModifiedL tfo now (setModifiedL ddata.oid now
            (updFolderL tfo (fun l => l ++ [ddata])
              (updFolderL po (eraseOid ddata.oid) forest)))) := by
      simp [tree_drop_event, hd, ht, hpar, hlen, hnc]
    obtain ⟨its3, hp3, hd3⟩ :=
      (sm_folderItems tfo ddata.oid now _).2 (its1 ++ [ddata]) hpost1
    obtain ⟨its4, hp4, hd4⟩ := (sm_folderItems tfo tfo now _).2 its3 hp3
    refine ⟨_, its4, hres, ?_, hp4, ?_⟩
    · rw [countOidL_setModifiedL, countOidL_setModifiedL]
      exact hf2d
    · have hdd1 : countOid1 ddata.oid ddata = 1 := by
        have ha := one_le_countOid1 ddata.oid ddata rfl
        have hb := getL_count_le ddata.oid dragged forest ddata hd
        omega
      have hc2 : countOidL ddata.oid (its1 ++ [ddata]) = 1 := by
        rw [countOidL_append]
        have h1 : countOidL ddata.oid [ddata]
            = countOid1 ddata.oid ddata + countOidL ddata.oid [] := rfl
        rw [h1, hdd1]
        have h0 : countOidL ddata.oid ([] : List (WItem α)) = 0 := rfl
        omega
      have hc3 : countOidL ddata.oid its3 = 1 := by
        rcases hd3 with h | h
        · rw [h]; exact hc2
        · rw [h, countOidL_setModifiedL]; exact hc2
      rcases hd4 with h | h
      · rw [h]; exact hc3
      · rw [h, countOidL_setModifiedL]; exact hc3


/-- C6 counterexample: dragging the top-level Research folder onto the
root folder is not rejected, and because a top-level item has no widget
parent it is never removed — the folder object ends up both at the top
level and inside the root folder's items (two occurrences of one
object), violating the no-partial-move claim. -/
theorem tree_drop_duplicate_counterexample :
    (tree_drop_event "t2" moveForest [1] [0]).map (countOidL 1) = some 2 ∧
    countOidL 1 moveForest = 1 := by
  constructor
  · rfl
  · rfl


/-- Witness for tree_drop_spec: all conjuncts at a concrete workspace —
the cycle rejection, a document drop and a folder drop. -/
theorem tree_drop_spec_witness :
    tree_drop_event "t" moveForest [0] [0] = none ∧
    (∃ forest' its',
      tree_drop_event "t" moveForest [0, 0] [0, 1] = some forest' ∧
      countOidL 10 forest' = 1 ∧ folderItems 4 forest' = some its' ∧
      countOidL 10 its' = 1) ∧
    (∃ forest' its',
      tree_drop_event "t" moveForest [0, 1] [1] = some forest' ∧
      countOidL 4 forest' = 1 ∧ folderItems 1 forest' = some its' ∧
      countOidL 4 its' = 1) :=
  ⟨tree_drop_spec.1 "t" moveForest [0] [0] _ rfl rfl rfl,
   tree_drop_spec.2 "t" moveForest [0, 0] [0, 1]
     (WItem.doc 10 (mkDoc "a.lango" 7 "c" "m")) 0 4 "Root" "c" "m" "Sub" "c" "m"
     [WItem.doc 10 (mkDoc "a.lango" 7 "c" "m"), WItem.folder 4 "Sub" "c" "m" []] []
     rfl rfl (by decide) rfl rfl rfl rfl rfl,
   tree_drop_spec.2 "t" moveForest [0, 1] [1]
     (WItem.folder 4 "Sub" "c" "m" []) 0 1 "Root" "c" "m" "Research" "c" "m"
     [WItem.doc 10 (mkDoc "a.lango" 7 "c" "m"), WItem.folder 4 "Sub" "c" "m" []] []
     rfl rfl (by decide) rfl rfl rfl rfl rfl⟩


/-- C7: moving a document to the trash folder relocates the document
object unchanged (same name, content and history stacks) to the end of
the trash folder's items, leaves exactly one copy of it, and is a no-op
when the source folder is already the trash folder. -/
theorem move_to_trash_spec {α : Type} :
    (∀ (now : String) (forest : List (WItem α)) (path tpath : List Nat)
        (dOid po trashOid : Nat) (dd : LTDoc α) (pn pc pm tn tc tm : String)
        (pits tits : List (WItem α)),
        getL forest path = some (WItem.doc dOid dd) →
        2 ≤ path.length →
        getL forest path.dropLast = some (WItem.folder po pn pc pm pits) →
        getL forest tpath = some (WItem.folder trashOid tn tc tm tits) →
        po ≠ trashOid → po ≠ dOid →
        countOidL dOid forest = 1 → countOidL po forest = 1 →
        countOidL trashOid forest = 1 →
        ∃ its', folderItems trashOid (move_to_trash now forest path trashOid)
            = some its' ∧
          its'.getLast? = some (WItem.doc dOid dd) ∧
          countOidL dOid (move_to_trash now forest path trashOid) = 1) ∧
    (∀ (now : String) (forest : List (WItem α)) (path : List Nat)
        (trashOid dOid : Nat) (dd : LTDoc α) (pn pc pm : String)
        (pits : List (WItem α)),
        getL forest path = some (WItem.doc dOid dd) →
        getL forest path.dropLast = some (WItem.folder trashOid pn pc pm pits) →
        move_to_trash now forest path trashOid = forest) := by
  constructor
  · intro now forest path tpath dOid po trashOid dd pn pc pm tn tc tm pits tits
      hd hlen hpar ht hnt hpd hu_d hu_po hu_t
    obtain ⟨hf1d, its1, hpost1, hits1d, hf2d⟩ :=
      remove_insert_spec forest path tpath (WItem.doc dOid dd) po trashOid
        pn pc pm tn tc tm pits tits hd hlen hpar ht rfl hu_d hu_po hu_t
    have hres : move_to_trash now forest path trashOid
        = setModifiedL po now
            (updFolderL trashOid (fun l => l ++ [WItem.doc dOid dd])
              (updFolderL po (eraseOid dOid) forest)) := by
      simp [move_to_trash, hd, hlen, hpar, hnt, WItem.oid]
    obtain ⟨its3, hp3, hd3⟩ :=
      (sm_folderItems trashOid po now _).2 (its1 ++ [WItem.doc dOid dd]) hpost1
    refine ⟨its3, by rw [hres]; exact hp3, ?_, ?_⟩
    · have hne : ¬ dOid = po := fun hh => hpd hh.symm
      rcases hd3 with h | h
      · rw [h, List.getLast?_concat]
      · rw [h, setModifiedL_append]
        have hsm : setModifiedL po now [WItem.doc dOid dd] = [WItem.doc dOid dd] := by
          simp [setModifiedL, setModified1, hne]
        rw [hsm, List.getLast?_concat]
    · rw [hres, countOidL_setModifiedL]
      exact hf2d
  · intro now forest path trashOid dOid dd pn pc pm pits hd hpar
    by_cases hl : 2 ≤ path.length
    · simp [move_to_trash, hd, hpar, hl]
    · simp [move_to_trash, hd, hl]


/-- Witness for move_to_trash_spec: both conjuncts at concrete
workspaces. -/
theorem move_to_trash_spec_witness :
    (∃ its', folderItems 2 (move_to_trash "t" moveForest [0, 0] 2) = some its' ∧
      its'.getLast? = some (WItem.doc 10 (mkDoc "a.lango" 7 "c" "m")) ∧
      countOidL 10 (move_to_trash "t" moveForest [0, 0] 2) = 1) ∧
    move_to_trash "t" trashForest [2, 0] 2 = trashForest :=
  ⟨move_to_trash_spec.1 "t" moveForest [0, 0] [2] 10 0 2
      (mkDoc "a.lango" 7 "c" "m") "Root" "c" "m" "Trash" "c" "m"
      [WItem.doc 10 (mkDoc "a.lango" 7 "c" "m"), WItem.folder 4 "Sub" "c" "m" []] []
      rfl (by decide) rfl rfl (by decide) (by decide) rfl rfl rfl,
   move_to_trash_spec.2 "t" trashForest [2, 0] 2 10
      (mkDoc "a.lango" 7 "c" "m") "Trash" "c" "m"
      [WItem.doc 10 (mkDoc "a.lango" 7 "c" "m")] rfl rfl⟩


mutual
/-- searchItem is the filtered pre-order document list, item form. -/
theorem searchItem_eq (query : String) :
    ∀ it : WItem Content,
      searchItem query it =
        ((pdocs1 it).filter
            (fun d => containsCI (toPlainText (json_to_qtextedit d.content)) query)).map
          (fun d => (get_excerpt (toPlainText (json_to_qtextedit d.content)) query, d))
  | .doc o d => by
    by_cases h : containsCI (toPlainText (json_to_qtextedit d.content)) query = true
    · simp [searchItem, pdocs1, h]
    · simp [searchItem, pdocs1, h]
  | .folder o n c m its => by
    simp only [searchItem, pdocs1]
    exact search_folder_eq query its

/-- search_folder is the filtered pre-order document list, forest
form. -/
theorem search_folder_eq (query : String) :
    ∀ l : List (WItem Content),
      search_folder query l =
        ((pdocsL l).filter
            (fun d => containsCI (toPlainText (json_to_qtextedit d.content)) query)).map
          (fun d => (get_excerpt (toPlainText (json_to_qtextedit d.content)) query, d))
  | [] => rfl
  | it :: rest => by
    simp only [search_folder, pdocsL, List.filter_append, List.map_append]
    rw [searchItem_eq query it, search_folder_eq query rest]
end

/-- C8 amended: search_project reports exactly the documents under the
root folder whose plain-text rendering contains the query
case-insensitively, in the tree's recursive pre-order; documents inside
the Research and Trash folders are never searched (search_folder is run
on self.root_folder only). -/
theorem search_scope (query : String) (ri re tr : List (WItem Content)) :
    search_project query ri re tr =
      ((pdocsL ri).filter
          (fun d => containsCI (toPlainText (json_to_qtextedit d.content)) query)).map
        (fun d => (get_excerpt (toPlainText (json_to_qtextedit d.content)) query, d)) :=
  search_folder_eq query ri


/-- C8 counterexample: a document living in the Trash folder matches the
query, but search_project returns no result for it — Trash (and
Research) are excluded from search, contradicting the claim. -/
theorem search_excludes_trash_counterexample :
    search_project "tango" [] []
        [WItem.doc 10 (mkDoc "Hello.lango" demoContent "c" "m")] = [] ∧
    containsCI (toPlainText (json_to_qtextedit demoContent)) "tango" = true :=
  ⟨rfl, by decide⟩


/-- C9 counterexample: an item record whose type field holds "banana"
(present but unrecognized) does not make deserialization fail at all:
the folder loads successfully with the item silently dropped — there is
no FormatError. -/
theorem from_dict_skip_counterexample :
    LangoTangoFolder.from_dict (J.obj [("name", J.s "F"), ("created", J.s "c"),
        ("modified", J.s "m"),
        ("items", J.arr [J.obj [("type", J.s "banana"), ("name", J.s "x")]])])
      = .ok (.pfolder (J.s "F") (J.s "c") (J.s "m") []) := by
  have hloop : itemsLoop [J.obj [("type", J.s "banana"), ("name", J.s "x")]] = .ok [] := by
    conv_lhs => rw [itemsLoop]
    rw [itemsLoop]
    rfl
  rw [LangoTangoFolder.from_dict]
  show (match itemsLoop [J.obj [("type", J.s "banana"), ("name", J.s "x")]] with
    | Except.error e => Except.error e
    | Except.ok its => Except.ok (PItem.pfolder (J.s "F") (J.s "c") (J.s "m") its)) = _
  rw [hloop]


/-- C9 amended: there is no FormatError in the code. A missing required
field (name, created, modified, items for folders; name, content,
created, modified for documents) raises Python's KeyError at its first
access, in left-to-right evaluation order; a missing type field in an
item record raises KeyError("type"); and an item whose type is present
but neither "document" nor "folder" is silently skipped — the load
succeeds without the item. -/
theorem from_dict_amended :
    (∀ data : J, getKey data "name" = .error (.keyError "name") →
        LangoTangoFolder.from_dict data = .error (.keyError "name")) ∧
    (∀ (data : J) (nm cr md : J), getKey data "name" = .ok nm →
        getKey data "created" = .ok cr → getKey data "modified" = .ok md →
        getKey data "items" = .error (.keyError "items") →
        LangoTangoFolder.from_dict data = .error (.keyError "items")) ∧
    (∀ (item : J) (rest : List J), getKey item "type" = .error (.keyError "type") →
        itemsLoop (item :: rest) = .error (.keyError "type")) ∧
    (∀ (item : J) (rest : List J) (t : J), getKey item "type" = .ok t →
        isStr t "document" = false → isStr t "folder" = false →
        itemsLoop (item :: rest) = itemsLoop rest) ∧
    (∀ item : J, getKey item "name" = .error (.keyError "name") →
        LangoTangoDocument.from_dict item = .error (.keyError "name")) ∧
    (∀ (item : J) (nm : J), getKey item "name" = .ok nm →
        getKey item "content" = .error (.keyError "content") →
        LangoTangoDocument.from_dict item = .error (.keyError "content")) := by
  refine ⟨?_, ?_, ?_, ?_, ?_, ?_⟩
  · intro data h
    rw [LangoTangoFolder.from_dict, h]
  · intro data nm cr md h1 h2 h3 h4
    rw [LangoTangoFolder.from_dict, h1, h2, h3]
    dsimp only
    split
    · next e heq =>
        rw [h4] at heq
        cases heq
        rfl
    · next itemsJ heq =>
        rw [h4] at heq
        exact Except.noConfusion heq
  · intro item rest h
    conv_lhs => rw [itemsLoop]
    rw [h]
  · intro item rest t ht hdoc hfol
    conv_lhs => rw [itemsLoop]
    rw [ht]
    simp only [hdoc, hfol, Bool.false_eq_true, if_false]
  · intro item h
    unfold LangoTangoDocument.from_dict
    rw [h]
    rfl
  · intro item nm h1 h2
    unfold LangoTangoDocument.from_dict
    rw [h1, h2]
    rfl


/-- Witness for from_dict_amended at concrete records. -/
theorem from_dict_amended_witness :
    LangoTangoFolder.from_dict (J.obj []) = .error (.keyError "name") ∧
    LangoTangoFolder.from_dict (J.obj [("name", J.s "F"), ("created", J.s "c"),
        ("modified", J.s "m")]) = .error (.keyError "items") ∧
    itemsLoop [J.obj []] = .error (.keyError "type") ∧
    itemsLoop [J.obj [("type", J.i 3)]] = itemsLoop [] ∧
    LangoTangoDocument.from_dict (J.obj [("type", J.s "document")])
      = .error (.keyError "name") ∧
    LangoTangoDocument.from_dict (J.obj [("name", J.s "d.lango")])
      = .error (.keyError "content") :=
  ⟨from_dict_amended.1 _ rfl,
   from_dict_amended.2.1 _ _ _ _ rfl rfl rfl rfl,
   from_dict_amended.2.2.1 _ _ rfl,
   from_dict_amended.2.2.2.1 _ _ _ rfl rfl rfl,
   from_dict_amended.2.2.2.2.1 _ rfl,
   from_dict_amended.2.2.2.2.2 _ _ rfl rfl⟩


end LangoTango
